import Mathlib

/-!
Verification development for the TapirLab pdf-watermarking pipeline
(`pdf_operations.py`, driven by `add_watermark.py`).

The pipeline is modelled as a shallow embedding: the filesystem is an
association list from path strings to file values, every stage function is a
Lean function on that state (fallible stages return `Except`), and the
external primitives (rasterizer, Gaussian blur, page merge, encryption) are
modelled by their contracts, since the repository treats them as black boxes.

Modelling conventions, fixed once here:
* Paths are POSIX style, `os.sep = '/'`; `os.path.join` is string
  concatenation with `'/'`, with the leading `'./'` that
  `os.path.join('.', …)` would add normalized away (it never distinguishes
  two files).
* `os.rename` is modelled as failing when the destination path already
  exists.  The repository's collision handler in `move_processed_pdf` wraps
  `os.rename` in `try/except` and documents the collision as an error that is
  re-raised, i.e. the code relies on the failing-rename contract (the
  behavior of Python's `os.rename` on Windows, and the reading the repository
  itself takes).
* The global NumPy random generator is modelled as an explicit stream
  `Rng : Nat → Int` of the successive samples it will produce; drawing `n`
  samples returns them and advances the stream.  Integer-valued samples
  suffice for every statement proved here: a float sample enters the program
  only through a truncating cast to `uint8`, and every concrete sample used
  below is an exact integer.
-/

/-! ### Python string splitting (`str.split`) -/

/-- The separator `os.sep` of the modelled platform. -/
def sepChar : Char := '/'

/-- The separator `os.sep` as a one-character string. -/
def sepS : String := "/"

/-- Core of Python's `str.split(c)` on a character list: returns the first
group (up to the first occurrence of `c`) and the remaining groups. -/
def splitCore (c : Char) : List Char → List Char × List (List Char)
  | [] => ([], [])
  | x :: xs =>
    let r := splitCore c xs
    if x = c then ([], r.1 :: r.2) else (x :: r.1, r.2)

/-- Python's `str.split(c)` on a character list: the list of groups between
occurrences of `c` (always nonempty). -/
def splitOnChar (c : Char) (l : List Char) : List (List Char) :=
  (splitCore c l).1 :: (splitCore c l).2

/-- Python's `input_pdf.split(os.sep)[-1].split('.')[0]`: the basename of a path up to
the first dot.  Every pipeline stage of `pdf_operations.py` derives its
output name this way. -/
def pyFileName (path : String) : String :=
  ⟨(splitCore '.' ((splitOnChar sepChar path.data).getLastD [])).1⟩

theorem splitCore_no_c (c : Char) :
    ∀ l : List Char, c ∉ l → splitCore c l = (l, []) := by
  intro l
  induction l with
  | nil => intro _; rfl
  | cons x xs ih =>
    intro h
    have hx : ¬ x = c := fun hxc => h (hxc ▸ List.mem_cons_self x xs)
    have hxs : c ∉ xs := fun hm => h (List.mem_cons_of_mem _ hm)
    simp [splitCore, hx, ih hxs]

theorem splitCore_fst_no_c (c : Char) :
    ∀ l : List Char, c ∉ (splitCore c l).1 := by
  intro l
  induction l with
  | nil => simp [splitCore]
  | cons x xs ih =>
    by_cases hx : x = c
    · simp [splitCore, hx]
    · simp [splitCore, hx]
      exact ⟨fun h => hx h.symm, ih⟩

theorem splitCore_fst_mem (c : Char) :
    ∀ l : List Char, ∀ x ∈ (splitCore c l).1, x ∈ l := by
  intro l
  induction l with
  | nil => simp [splitCore]
  | cons y ys ih =>
    by_cases hy : y = c
    · simp [splitCore, hy]
    · intro x hx
      simp only [splitCore, if_neg hy] at hx
      rcases List.mem_cons.mp hx with h | h
      · exact h ▸ List.mem_cons_self y ys
      · exact List.mem_cons_of_mem _ (ih x h)

theorem splitCore_fst_append (c : Char) :
    ∀ b r : List Char, c ∉ b → (splitCore c (b ++ c :: r)).1 = b := by
  intro b
  induction b with
  | nil => intro r _; simp [splitCore]
  | cons x xs ih =>
    intro r h
    have hx : ¬ x = c := fun hxc => h (hxc ▸ List.mem_cons_self x xs)
    have hxs : c ∉ xs := fun hm => h (List.mem_cons_of_mem _ hm)
    simp [splitCore, hx, ih r hxs]

theorem splitCore_snd_ne_nil (c : Char) :
    ∀ l : List Char, c ∈ l → (splitCore c l).2 ≠ [] := by
  intro l
  induction l with
  | nil => simp
  | cons x xs ih =>
    intro h
    by_cases hx : x = c
    · simp [splitCore, hx]
    · have hxs : c ∈ xs := by
        rcases List.mem_cons.mp h with h' | h'
        · exact absurd h'.symm hx
        · exact h'
      simp [splitCore, hx, ih hxs]

theorem getLastD_irrel {α : Type} (l : List α) (h : l ≠ []) (d₁ d₂ : α) :
    l.getLastD d₁ = l.getLastD d₂ := by
  cases l with
  | nil => exact absurd rfl h
  | cons a t =>
    cases hx : (a :: t).getLast? with
    | none => simp at hx
    | some x => simp [List.getLastD, hx]

/-- The last group of a split at the separator, when everything after some
separator occurrence is separator-free, is exactly that trailing part. -/
theorem splitOnChar_getLastD (c : Char) :
    ∀ xs ys : List Char, c ∉ ys →
      (splitOnChar c (xs ++ c :: ys)).getLastD [] = ys := by
  intro xs
  induction xs with
  | nil =>
    intro ys hys
    simp only [List.nil_append, splitOnChar, splitCore]
    simp [splitCore_no_c c ys hys, List.getLastD_cons]
  | cons x xs ih =>
    intro ys hys
    have hmem : c ∈ xs ++ c :: ys := List.mem_append_right _ (List.mem_cons_self c _)
    have hne := splitCore_snd_ne_nil c _ hmem
    by_cases hx : x = c
    · have := ih ys hys
      simp only [splitOnChar, List.cons_append, splitCore, if_pos hx] at *
      simpa [List.getLastD_cons] using this
    · have := ih ys hys
      simp only [splitOnChar, List.cons_append, splitCore, if_neg hx] at *
      rcases hsnd : (splitCore c (xs ++ c :: ys)).2 with _ | ⟨g, gs⟩
      · exact absurd hsnd hne
      · rw [hsnd] at this
        simpa [List.getLastD_cons] using this

theorem splitOnChar_getLastD_no_c (c : Char) (l : List Char) (h : c ∉ l) :
    (splitOnChar c l).getLastD [] = l := by
  simp [splitOnChar, splitCore_no_c c l h]

/-- No group in the last position contains the separator. -/
theorem splitOnChar_getLastD_no_c_mem (c : Char) :
    ∀ l : List Char, c ∉ (splitOnChar c l).getLastD [] := by
  intro l
  induction l with
  | nil => simp [splitOnChar, splitCore]
  | cons x xs ih =>
    by_cases hx : x = c
    · simp only [splitOnChar, splitCore, if_pos hx]
      simpa [splitOnChar, List.getLastD_cons] using ih
    · simp only [splitOnChar, splitCore, if_neg hx]
      rcases hsnd : (splitCore c xs).2 with _ | ⟨g, gs⟩
      · simp only [List.getLastD_cons, List.getLastD_nil]
        intro hmem
        rcases List.mem_cons.mp hmem with h' | h'
        · exact hx h'.symm
        · exact splitCore_fst_no_c c xs h'
      · simp only [splitOnChar, hsnd, List.getLastD_cons] at ih ⊢
        exact ih

theorem str_ext {a b : String} (h : a.data = b.data) : a = b := by
  cases a; cases b; cases h; rfl

theorem str_data_append (a b : String) : (a ++ b).data = a.data ++ b.data := by
  cases a; cases b; rfl

theorem sepS_data : sepS.data = [sepChar] := rfl

theorem str_mk_data (s : String) : (⟨s.data⟩ : String) = s := rfl

theorem pyFileName_concat (folder name : String) (h : sepChar ∉ name.data) :
    pyFileName (folder ++ sepS ++ name) = ⟨(splitCore '.' name.data).1⟩ := by
  unfold pyFileName
  have hdata : (folder ++ sepS ++ name).data = folder.data ++ sepChar :: name.data := by
    rw [str_data_append, str_data_append, sepS_data]; simp
  rw [hdata, splitOnChar_getLastD sepChar folder.data name.data h]

/-- Basename extraction on a path of the shape `<folder>/<stem>.pdf` with a
dot-free, separator-free stem yields the stem. -/
theorem pyFileName_stem (folder stem : String) (hdot : '.' ∉ stem.data)
    (hsep : sepChar ∉ stem.data) :
    pyFileName (folder ++ sepS ++ (stem ++ ".pdf")) = stem := by
  have h1 : sepChar ∉ (stem ++ ".pdf").data := by
    rw [str_data_append]
    intro hmem
    rcases List.mem_append.mp hmem with h | h
    · exact hsep h
    · revert h; decide
  rw [pyFileName_concat _ _ h1]
  have h2 : (stem ++ ".pdf").data = stem.data ++ '.' :: ['p', 'd', 'f'] := by
    rw [str_data_append]
  rw [h2, splitCore_fst_append '.' stem.data _ hdot]

theorem pyFileName_no_dot (p : String) : '.' ∉ (pyFileName p).data :=
  splitCore_fst_no_c '.' _

theorem pyFileName_no_sep (p : String) : sepChar ∉ (pyFileName p).data := by
  intro h
  exact splitOnChar_getLastD_no_c_mem sepChar p.data
    (splitCore_fst_mem '.' _ sepChar h)

/-! ### Decimal rendering of natural numbers (Python's `f-string` of an int) -/

/-- Fuel-based decimal rendering of `n`; with fuel above `n` this is the
usual decimal numeral. -/
def natStrAux : Nat → Nat → List Char
  | 0, _ => []
  | fuel+1, n =>
    if n < 10 then [Nat.digitChar n]
    else natStrAux fuel (n / 10) ++ [Nat.digitChar (n % 10)]

/-- Decimal rendering of a natural number, as produced by Python string
interpolation of a page index or a random suffix. -/
def natStr (n : Nat) : String := ⟨natStrAux (n+1) n⟩

theorem natStrAux_fuel : ∀ (n f₁ f₂ : Nat), n < f₁ → n < f₂ →
    natStrAux f₁ n = natStrAux f₂ n := by
  intro n
  induction n using Nat.strong_induction_on with
  | _ n ih =>
    intro f₁ f₂ h₁ h₂
    cases f₁ with
    | zero => omega
    | succ g₁ =>
      cases f₂ with
      | zero => omega
      | succ g₂ =>
        by_cases hn : n < 10
        · simp [natStrAux, hn]
        · have hd : n / 10 < n := Nat.div_lt_self (by omega) (by omega)
          have hg₁ : n / 10 < g₁ := by omega
          have hg₂ : n / 10 < g₂ := by omega
          simp [natStrAux, hn, ih (n/10) hd g₁ g₂ hg₁ hg₂]

theorem natStrAux_ne_nil : ∀ (n f : Nat), n < f → natStrAux f n ≠ [] := by
  intro n f h
  cases f with
  | zero => omega
  | succ g =>
    by_cases hn : n < 10
    · simp [natStrAux, hn]
    · simp [natStrAux, hn]

theorem digitChar_inj_lt :
    ∀ a, a < 10 → ∀ b, b < 10 → Nat.digitChar a = Nat.digitChar b → a = b := by
  decide

theorem natStrAux_inj : ∀ m n : Nat,
    natStrAux (m+1) m = natStrAux (n+1) n → m = n := by
  intro m
  induction m using Nat.strong_induction_on with
  | _ m ih =>
    intro n h
    by_cases hm : m < 10 <;> by_cases hn : n < 10
    · simp only [natStrAux, if_pos hm, if_pos hn, List.cons.injEq, and_true] at h
      exact digitChar_inj_lt m hm n hn h
    · exfalso
      have hd : n / 10 < n := Nat.div_lt_self (by omega) (by omega)
      have hne := natStrAux_ne_nil (n/10) n hd
      have hlen := congrArg List.length h
      simp only [natStrAux, if_pos hm, if_neg hn, List.length_append,
        List.length_cons, List.length_nil, List.length_singleton] at hlen
      have := List.length_pos.mpr hne
      omega
    · exfalso
      have hd : m / 10 < m := Nat.div_lt_self (by omega) (by omega)
      have hne := natStrAux_ne_nil (m/10) m hd
      have hlen := congrArg List.length h
      simp only [natStrAux, if_neg hm, if_pos hn, List.length_append,
        List.length_cons, List.length_nil, List.length_singleton] at hlen
      have := List.length_pos.mpr hne
      omega
    · have hdm : m / 10 < m := Nat.div_lt_self (by omega) (by omega)
      have hdn : n / 10 < n := Nat.div_lt_self (by omega) (by omega)
      simp only [natStrAux, if_neg hm, if_neg hn] at h
      have h' := congrArg List.reverse h
      simp only [List.reverse_append, List.reverse_cons, List.reverse_nil,
        List.nil_append, List.singleton_append, List.cons.injEq] at h'
      obtain ⟨hdig, hrest⟩ := h'
      have hmod : m % 10 = n % 10 :=
        digitChar_inj_lt _ (Nat.mod_lt _ (by omega)) _ (Nat.mod_lt _ (by omega)) hdig
    -- normalize the fuel and apply the induction hypothesis
      have hrest' : natStrAux (m/10+1) (m/10) = natStrAux (n/10+1) (n/10) := by
        have e1 : natStrAux m (m/10) = natStrAux (m/10+1) (m/10) :=
          natStrAux_fuel (m/10) m (m/10+1) hdm (Nat.lt_succ_self _)
        have e2 : natStrAux n (n/10) = natStrAux (n/10+1) (n/10) :=
          natStrAux_fuel (n/10) n (n/10+1) hdn (Nat.lt_succ_self _)
        have : natStrAux m (m/10) = natStrAux n (n/10) := by
          have := congrArg List.reverse hrest
          simpa using this
        rw [← e1, ← e2]; exact this
      have hdiv := ih (m/10) hdm (n/10) hrest'
      omega

theorem natStr_inj : ∀ m n : Nat, natStr m = natStr n → m = n := by
  intro m n h
  exact natStrAux_inj m n (congrArg String.data h)

/-- Every character of a decimal numeral is a digit character. -/
theorem natStrAux_chars : ∀ (f n : Nat), ∀ c ∈ natStrAux f n,
    ∃ d, d < 10 ∧ c = Nat.digitChar d := by
  intro f
  induction f with
  | zero => intro n c hc; simp [natStrAux] at hc
  | succ g ih =>
    intro n c hc
    by_cases hn : n < 10
    · simp only [natStrAux, if_pos hn, List.mem_singleton] at hc
      exact ⟨n, hn, hc⟩
    · simp only [natStrAux, if_neg hn, List.mem_append, List.mem_singleton] at hc
      rcases hc with hc | hc
      · exact ih (n / 10) c hc
      · exact ⟨n % 10, Nat.mod_lt _ (by omega), hc⟩

theorem natStr_no_sep (n : Nat) : sepChar ∉ (natStr n).data := by
  intro h
  obtain ⟨d, hd, hc⟩ := natStrAux_chars (n+1) n sepChar h
  revert hc
  have : Nat.digitChar d ≠ sepChar := by revert hd; revert d; decide
  exact fun hc => this hc.symm

theorem natStr_no_dot (n : Nat) : '.' ∉ (natStr n).data := by
  intro h
  obtain ⟨d, hd, hc⟩ := natStrAux_chars (n+1) n '.' h
  revert hc
  have : Nat.digitChar d ≠ '.' := by revert hd; revert d; decide
  exact fun hc => this hc.symm

/-! ### Lexicographic string ordering and sorting (Python's `sorted`) -/

/-- Lexicographic comparison of character lists by code point, as Python
compares strings. -/
def lexLe : List Char → List Char → Bool
  | [], _ => true
  | _ :: _, [] => false
  | a :: as, b :: bs => if a < b then true else if b < a then false else lexLe as bs

/-- Python's string `<=` (lexicographic by code point). -/
def strLe (s t : String) : Bool := lexLe s.data t.data

/-- Insertion step of the sorting model. -/
def insertStr (s : String) : List String → List String
  | [] => [s]
  | t :: ts => if strLe s t then s :: t :: ts else t :: insertStr s ts

/-- Model of Python's `sorted` on a list of strings (insertion sort by
lexicographic order; `sorted` is determined by the ordering alone and
insertion sort realizes it). -/
def sortStrings : List String → List String
  | [] => []
  | s :: ss => insertStr s (sortStrings ss)

theorem lexLe_append : ∀ (p a b : List Char), lexLe (p ++ a) (p ++ b) = lexLe a b := by
  intro p a b
  induction p with
  | nil => rfl
  | cons c cs ih => simp [lexLe, lt_irrefl, ih]

theorem strLe_append (p a b : String) : strLe (p ++ a) (p ++ b) = strLe a b := by
  simp [strLe, str_data_append, lexLe_append]

theorem insertStr_map_append (p s : String) :
    ∀ l, insertStr (p ++ s) (l.map (fun t => p ++ t)) =
      (insertStr s l).map (fun t => p ++ t) := by
  intro l
  induction l with
  | nil => rfl
  | cons t ts ih =>
    simp only [List.map_cons, insertStr, strLe_append]
    cases h : strLe s t with
    | true => simp [h]
    | false => simp [h, ih]

theorem sortStrings_map_append (p : String) :
    ∀ l, sortStrings (l.map (fun t => p ++ t)) =
      (sortStrings l).map (fun t => p ++ t) := by
  intro l
  induction l with
  | nil => rfl
  | cons t ts ih => simp only [List.map_cons, sortStrings, ih, insertStr_map_append]

/-! ### Data model: rasters, pages, documents, permissions, files -/

/-- A raster image: `height × width × channels` with a flat channel-value
buffer (`np.asarray` of a rendered page), values in `0..255`. -/
structure Image where
  height : Nat
  width : Nat
  channels : Nat
  data : List Nat
deriving DecidableEq

/-- A PDF page: media-box dimensions in points and an abstract content
stream. -/
structure Page where
  pw : Nat
  ph : Nat
  content : List Nat
deriving DecidableEq

/-- A (plain) PDF document: its ordered list of pages. -/
structure PdfDoc where
  pages : List Page
deriving DecidableEq

/-- The permission record passed to `pikepdf.Permissions` in
`encrypt_and_add_metadata`. -/
structure PdfPermissions where
  accessibility : Bool
  extract : Bool
  modify_annotation : Bool
  modify_assembly : Bool
  modify_form : Bool
  modify_other : Bool
  print_lowres : Bool
  print_highres : Bool
deriving DecidableEq

/-- A file on disk: a PNG raster, a plain PDF, or an encrypted PDF carrying
metadata, the two passwords and the permission set
(`pikepdf.Pdf.save` with `pikepdf.Encryption`). -/
inductive File where
  | png (img : Image)
  | pdf (doc : PdfDoc)
  | encpdf (doc : PdfDoc) (meta : List (String × String))
      (usr owner : String) (allow : PdfPermissions)
deriving DecidableEq

/-- The filesystem: an association list from paths to files; the entry
nearest the head is the current content of its path. -/
abbrev Fs := List (String × File)

/-- Read the file at a path (`open(p)` / `PdfFileReader(p)` /
`pikepdf.Pdf.open(p)`). -/
def Fs.read : Fs → String → Option File
  | [], _ => none
  | (q, f) :: rest, p => if p = q then some f else Fs.read rest p

/-- Write a file at a path (`open(p, 'wb')` followed by a write: creates or
silently replaces). -/
def Fs.write (fs : Fs) (p : String) (f : File) : Fs := (p, f) :: fs

/-- Delete the file at a path (`os.remove`). -/
def Fs.removeFile (fs : Fs) (p : String) : Fs :=
  fs.filter (fun e => e.1 ≠ p)

/-- Model of `os.path.exists`. -/
def Fs.existsPath (fs : Fs) (p : String) : Bool := (fs.read p).isSome

/-- Model of `os.rename src dst`.  Fails if the source is missing or the destination
exists (see the module docstring for this modelling choice). -/
def Fs.rename (fs : Fs) (src dst : String) : Except String Fs :=
  match fs.read src with
  | none => Except.error "FileNotFoundError"
  | some f =>
    if fs.existsPath dst then Except.error "FileExistsError"
    else Except.ok ((fs.removeFile src).write dst f)

/-- Does path `p` match the glob pattern `<folder>/*<ext>` (a direct child
of `folder` whose name ends in `ext`)? -/
def globMatch (folder ext : String) (p : String) : Bool :=
  (folder ++ sepS).data.isPrefixOf p.data &&
    (!(p.data.drop (folder ++ sepS).data.length).contains sepChar &&
      ext.data.isSuffixOf (p.data.drop (folder ++ sepS).data.length))

/-- Model of `glob.glob(os.path.join(folder, '*' + ext))`: the paths in the
filesystem that are direct children of `folder` with the given extension
(in filesystem order; the pipeline always sorts the result). -/
def Fs.glob (fs : Fs) (folder ext : String) : List String :=
  (fs.map Prod.fst).filter (globMatch folder ext)

theorem Fs.read_write_self (fs : Fs) (p : String) (f : File) :
    (fs.write p f).read p = some f := by
  simp [Fs.write, Fs.read]

theorem Fs.read_write_ne (fs : Fs) {p q : String} (f : File) (h : q ≠ p) :
    (fs.write p f).read q = fs.read q := by
  simp [Fs.write, Fs.read, h]

theorem Fs.read_removeFile_ne (fs : Fs) {p q : String} (h : q ≠ p) :
    (fs.removeFile p).read q = fs.read q := by
  induction fs with
  | nil => rfl
  | cons e rest ih =>
    cases e with
    | mk a b =>
      by_cases he : a = p
      · have hc : (decide ((a, b).1 ≠ p)) = false := by simp [he]
        have hq : ¬ q = a := fun hq => h (he ▸ hq)
        simp only [Fs.removeFile, List.filter_cons, hc, Bool.false_eq_true,
          if_false] at ih ⊢
        rw [show Fs.read ((a, b) :: rest) q = Fs.read rest q from by
          simp [Fs.read, hq]]
        exact ih
      · have hc : (decide ((a, b).1 ≠ p)) = true := by simp [he]
        simp only [Fs.removeFile, List.filter_cons, hc, if_true] at ih ⊢
        by_cases hq : q = a
        · simp [Fs.read, hq]
        · simp only [Fs.read, if_neg hq]
          exact ih

theorem Fs.read_removeFile_self (fs : Fs) (p : String) :
    (fs.removeFile p).read p = none := by
  induction fs with
  | nil => rfl
  | cons e rest ih =>
    cases e with
    | mk a b =>
      by_cases he : a = p
      · have hc : (decide ((a, b).1 ≠ p)) = false := by simp [he]
        simp only [Fs.removeFile, List.filter_cons, hc, Bool.false_eq_true,
          if_false] at ih ⊢
        exact ih
      · have hc : (decide ((a, b).1 ≠ p)) = true := by simp [he]
        have hp : ¬ p = a := fun h => he h.symm
        simp only [Fs.removeFile, List.filter_cons, hc, if_true] at ih ⊢
        simp only [Fs.read, if_neg hp]
        exact ih

/-- Reading an appended filesystem segment: if the path is a key of the
front segment with no duplicate keys there, it reads the associated file. -/
theorem Fs.read_append_mem (l : List (String × File)) (fs : Fs)
    {p : String} {f : File} :
    (l.map Prod.fst).Nodup → (p, f) ∈ l → Fs.read (l ++ fs) p = some f := by
  induction l with
  | nil => intro _ hm; simp at hm
  | cons e rest ih =>
    intro hnd hm
    cases e with
    | mk q g =>
      simp only [List.map_cons, List.nodup_cons] at hnd
      rcases List.mem_cons.mp hm with h | h
      · injection h with h1 h2
        subst h1; subst h2
        simp [Fs.read]
      · have hpq : ¬ p = q := by
          intro hpq
          subst hpq
          exact hnd.1 (List.mem_map.mpr ⟨(p, f), h, rfl⟩)
        simp only [List.cons_append, Fs.read, if_neg hpq]
        exact ih hnd.2 h

/-- Reading past an appended segment whose keys do not include the path. -/
theorem Fs.read_append_not_mem (l : List (String × File)) (fs : Fs)
    {p : String} : p ∉ l.map Prod.fst → Fs.read (l ++ fs) p = fs.read p := by
  induction l with
  | nil => intro _; rfl
  | cons e rest ih =>
    intro h
    cases e with
    | mk q g =>
      simp only [List.map_cons, List.mem_cons] at h
      push_neg at h
      simp only [List.cons_append, Fs.read, if_neg h.1]
      exact ih h.2

theorem Fs.glob_append (l : List (String × File)) (fs : Fs) (folder ext : String) :
    Fs.glob (l ++ fs) folder ext =
      (l.map Prod.fst).filter (globMatch folder ext) ++ fs.glob folder ext := by
  simp [Fs.glob, List.filter_append]

/-! ### Output names and stage paths -/

/-- Page-image filename `f'_{j}.png'` written by `pdf_to_image`
(zero-based page index, unpadded decimal). -/
def pngName (j : Nat) : String := "_" ++ natStr j ++ ".png"

/-- Full path of the page image `j` in an output folder. -/
def pngPath (folder : String) (j : Nat) : String := (folder ++ sepS) ++ pngName j

/-- Single-page PDF filename `f'tmp_{j}.pdf'` written by `image_to_pdf`. -/
def tmpPdfName (j : Nat) : String := "tmp_" ++ natStr j ++ ".pdf"

/-- Full path of the single-page PDF `j` in an output folder. -/
def tmpPdfPath (folder : String) (j : Nat) : String :=
  (folder ++ sepS) ++ tmpPdfName j

/-- Output path of `blur_pages_of_pdf`: `<folder>/<basename>_blurred.pdf`. -/
def blurredPath (output_folder input_pdf : String) : String :=
  output_folder ++ sepS ++ (pyFileName input_pdf ++ "_blurred" ++ ".pdf")

/-- Output path of `add_watermark`: `<folder>/<basename>_watermarked.pdf`. -/
def watermarkedPath (output_folder input_pdf : String) : String :=
  output_folder ++ sepS ++ (pyFileName input_pdf ++ "_watermarked" ++ ".pdf")

/-- Output path of `pdf_to_image_to_pdf`: `<folder>/<basename>_im2pdf.pdf`. -/
def im2pdfPath (output_folder input_pdf : String) : String :=
  output_folder ++ sepS ++ (pyFileName input_pdf ++ "_im2pdf" ++ ".pdf")

/-- Output path of `encrypt_and_add_metadata`:
`<folder>/<basename>_final.pdf`. -/
def finalPath (output_folder input_pdf : String) : String :=
  output_folder ++ sepS ++ (pyFileName input_pdf ++ "_final" ++ ".pdf")

/-- Archive target of `move_processed_pdf`: `<folder>/<basename>.pdf`. -/
def archivePath (processed_folder input_pdf : String) : String :=
  processed_folder ++ sepS ++ (pyFileName input_pdf ++ ".pdf")

/-- Collision-avoiding archive target of `move_processed_pdf`:
`<folder>/<basename>_exists_<rnd>.pdf`. -/
def suffixedArchivePath (processed_folder input_pdf : String) (rnd : Nat) : String :=
  processed_folder ++ sepS ++
    (pyFileName input_pdf ++ ("_exists_" ++ natStr rnd ++ ".pdf"))

/-- A stage output path `<folder>/<basename><suffix>.pdf` (nonempty dot-free
separator-free suffix) is never the input path itself: applying basename
extraction to both would force the suffix to be empty. -/
theorem stage_output_ne_input (outf input sfx : String) (hne : sfx ≠ "")
    (hdot : '.' ∉ sfx.data) (hsep : sepChar ∉ sfx.data) :
    outf ++ sepS ++ (pyFileName input ++ sfx ++ ".pdf") ≠ input := by
  intro heq
  have hd : '.' ∉ (pyFileName input ++ sfx).data := by
    rw [str_data_append]
    intro hm
    rcases List.mem_append.mp hm with h | h
    · exact pyFileName_no_dot input h
    · exact hdot h
  have hs : sepChar ∉ (pyFileName input ++ sfx).data := by
    rw [str_data_append]
    intro hm
    rcases List.mem_append.mp hm with h | h
    · exact pyFileName_no_sep input h
    · exact hsep h
  have h1 := pyFileName_stem outf (pyFileName input ++ sfx) hd hs
  rw [heq] at h1
  have hlen := congrArg (fun s : String => s.data.length) h1
  simp only [str_data_append, List.length_append] at hlen
  have hnil : sfx.data = [] := List.eq_nil_of_length_eq_zero (by omega)
  exact hne (str_ext hnil)

theorem pngName_data (j : Nat) :
    (pngName j).data = '_' :: ((natStr j).data ++ ['.', 'p', 'n', 'g']) := by
  simp [pngName, str_data_append]

theorem tmpPdfName_data (j : Nat) :
    (tmpPdfName j).data =
      't' :: 'm' :: 'p' :: '_' :: ((natStr j).data ++ ['.', 'p', 'd', 'f']) := by
  simp [tmpPdfName, str_data_append]

theorem pngName_inj {j k : Nat} (h : pngName j = pngName k) : j = k := by
  have hd := congrArg String.data h
  rw [pngName_data, pngName_data] at hd
  injection hd with _ hd
  exact natStr_inj j k (str_ext (List.append_cancel_right hd))

theorem pngPath_inj (folder : String) {j k : Nat}
    (h : pngPath folder j = pngPath folder k) : j = k := by
  have hd := congrArg String.data h
  simp only [pngPath, str_data_append] at hd
  exact pngName_inj (str_ext (List.append_cancel_left hd))

theorem pngPath_ne_tmpPdfPath (folder folder' : String) (j k : Nat)
    (hf : folder = folder') : pngPath folder j ≠ tmpPdfPath folder' k := by
  subst hf
  intro h
  have hd := congrArg String.data h
  simp only [pngPath, tmpPdfPath, str_data_append] at hd
  have := List.append_cancel_left hd
  rw [pngName_data, tmpPdfName_data] at this
  injection this with h1 _
  exact absurd h1 (by decide)

/-- A path ending in `.pdf` never equals one ending in `.png`. -/
theorem append_pdf_ne_append_png (a b : String) : a ++ ".pdf" ≠ b ++ ".png" := by
  intro h
  have hd := congrArg String.data h
  rw [str_data_append, str_data_append] at hd
  have h1 : (a.data ++ (".pdf" : String).data).getLast? = some 'f' := by
    rw [List.getLast?_append]; rfl
  have h2 : (b.data ++ (".png" : String).data).getLast? = some 'g' := by
    rw [List.getLast?_append]; rfl
  rw [hd, h2] at h1
  exact absurd (Option.some.inj h1) (by decide)

theorem isPrefixOf_append_self (a b : List Char) : a.isPrefixOf (a ++ b) = true := by
  induction a with
  | nil => simp [List.isPrefixOf]
  | cons x xs ih => simp [List.isPrefixOf, ih]

theorem isSuffixOf_append_self (a b : List Char) : a.isSuffixOf (b ++ a) = true := by
  simp [List.isSuffixOf, List.reverse_append, isPrefixOf_append_self]

theorem contains_eq_false_of_not_mem {a : Char} {l : List Char} (h : a ∉ l) :
    l.contains a = false := by
  cases hc : l.contains a with
  | false => rfl
  | true => exact absurd (List.elem_iff.mp hc) h

theorem pngName_no_sep (j : Nat) : sepChar ∉ (pngName j).data := by
  rw [pngName_data]
  intro h
  rcases List.mem_cons.mp h with h | h
  · exact absurd h (by decide)
  · rcases List.mem_append.mp h with h | h
    · exact natStr_no_sep j h
    · revert h; decide

/-- Every page-image path written into `folder` matches the glob pattern
`<folder>/*.png` used by `image_to_pdf`. -/
theorem globMatch_pngPath (folder : String) (j : Nat) :
    globMatch folder ".png" (pngPath folder j) = true := by
  have hdata : (pngPath folder j).data = (folder ++ sepS).data ++ (pngName j).data := by
    simp [pngPath, str_data_append]
  simp only [globMatch, hdata, Bool.and_eq_true]
  refine ⟨isPrefixOf_append_self _ _, ?_⟩
  rw [List.drop_left]
  constructor
  · rw [contains_eq_false_of_not_mem (pngName_no_sep j)]; rfl
  · have : (pngName j).data = ((("_" : String) ++ natStr j).data) ++ (".png" : String).data := by
      simp [pngName, str_data_append]
    rw [this]
    exact isSuffixOf_append_self _ _

/-! ### The noise/blur filter (`blur_image`) and its external primitives -/

/-- The global NumPy random generator, as the stream of samples it will
produce (see the module docstring). -/
abbrev Rng := Nat → Int

/-- Model of `np.random.normal(0, sigma, n)`: draw `n` samples from the global
generator and advance it. -/
def np_random_normal (rng : Rng) (n : Nat) : List Int × Rng :=
  ((List.range n).map rng, fun i => rng (i + n))

/-- Conversion `.astype('uint8')` applied to a noise sample: C-style conversion,
truncation toward zero followed by reduction modulo `2^8` (a negative
sample such as `-1` becomes `255`). -/
def astype_uint8 (z : Int) : Nat := (z % 256).toNat

/-- Model of `cv2.add` on `uint8` operands: saturating addition, clamped at 255. -/
def cv2_add (a b : Nat) : Nat := min 255 (a + b)

/-- The noise stage of `blur_image`: the sampled noise array, cast with
`.astype('uint8')`, is added to the image with `cv2.add`. -/
def add_gaussian_noise (data : List Nat) (noise : List Int) : List Nat :=
  List.zipWith (fun p z => cv2_add p (astype_uint8 z)) data noise

/-- Model of `cv2.GaussianBlur`: an external primitive, out of scope for the
repository (spec §1); its contract is a raster of the same dimensions.
Modelled as the identity on the pixel buffer — no theorem below depends on
the blurred pixel values beyond dimensions and the equality or inequality
already present in its input, and on the constant one-pixel rasters used in
concrete statements a normalized Gaussian kernel is in fact the identity. -/
def cv2_GaussianBlur (img : Image) (kernel : Nat × Nat) (sigma : Rat) : Image :=
  img

/-- Model of `blur_image(page, kernel, sigma)`: draw Gaussian noise shaped like the
image, cast it to `uint8`, add it with `cv2.add`, then Gaussian-blur.
Consumes `page.height * page.width * page.channels` samples (`img.size`)
from the global generator. -/
def blur_image (page : Image) (kernel : Nat × Nat) (sigma : Rat) (rng : Rng) :
    Image × Rng :=
  let n := page.height * page.width * page.channels
  let draw := np_random_normal rng n
  let img_gauss : Image :=
    ⟨page.height, page.width, page.channels, add_gaussian_noise page.data draw.1⟩
  (cv2_GaussianBlur img_gauss kernel sigma, draw.2)

/-- Following the spec's words, for comparison with the code: the claimed
result of the noise stage is the clamp of `image + noise` into `0..255`
("values clamp to the valid 0–255 channel range rather than wrapping"). -/
def spec_noise_add (p : Nat) (z : Int) : Int := max 0 (min 255 ((p : Int) + z))

/-! ### Rasterizer adapter (`pdf2image.convert_from_path`) -/

/-- Rasterize one page at a resolution: an external primitive, modelled by
its contract — a 3-channel raster whose pixel dimensions scale with the DPI;
the pixel buffer is abstracted to the page's content tokens (no claim
depends on rendered pixel values). -/
def convert_page (pg : Page) (dpi : Nat) : Image :=
  ⟨pg.ph * dpi, pg.pw * dpi, 3, pg.content⟩

/-- Model of `convert_from_path(path, dpi, fmt='PNG')`: one raster per page, in page
order. -/
def convert_from_path (doc : PdfDoc) (dpi : Nat) : List Image :=
  doc.pages.map (fun pg => convert_page pg dpi)

/-- The page loop of `pdf_to_image`: write `f'_{j}.png'` for each page,
blurring first when requested (which consumes random samples). -/
def pdf_to_image_loop (output_folder : String) (blur : Bool) (kernel : Nat × Nat)
    (sigma : Rat) : Fs → Rng → List Image → Nat → Fs × Rng
  | fs, rng, [], _ => (fs, rng)
  | fs, rng, page :: rest, j =>
    if blur then
      let b := blur_image page kernel sigma rng
      pdf_to_image_loop output_folder blur kernel sigma
        (fs.write (pngPath output_folder j) (File.png b.1)) b.2 rest (j+1)
    else
      pdf_to_image_loop output_folder blur kernel sigma
        (fs.write (pngPath output_folder j) (File.png page)) rng rest (j+1)

/-- Model of `pdf_to_image(path_to_pdf, output_folder, dpi=100, blur=True,
kernel=(5,5), sigma=1)`: rasterize every page at `dpi` and save each one as
`<output_folder>/_<j>.png`, optionally blurred. -/
def pdf_to_image (fs : Fs) (rng : Rng) (path_to_pdf output_folder : String)
    (dpi : Nat) (blur : Bool) (kernel : Nat × Nat) (sigma : Rat) :
    Except String (Fs × Rng) :=
  match fs.read path_to_pdf with
  | some (File.pdf doc) =>
    Except.ok (pdf_to_image_loop output_folder blur kernel sigma fs rng
      (convert_from_path doc dpi) 0)
  | _ => Except.error "cannot open PDF"

/-! ### Page compositor (`set_page` / `draw_image` / `image_to_pdf`) -/

/-- A4 width in points (`reportlab.lib.pagesizes.A4`, rounded). -/
def A4w : Nat := 595

/-- A4 height in points. -/
def A4h : Nat := 842

/-- Model of `set_page(name, orientation)`: an empty A4 page, landscape or
portrait. -/
def set_page (orientation : String) : Page :=
  if orientation = "landscape" then ⟨A4h, A4w, []⟩ else ⟨A4w, A4h, []⟩

/-- Model of `draw_image(canvas_, image, orientation)`: draw the raster scaled to
the full page; the page keeps its dimensions and acquires the raster as
content. -/
def draw_image (canvas_ : Page) (image : Image) (orientation : String) : Page :=
  ⟨canvas_.pw, canvas_.ph, canvas_.content ++ image.data⟩

/-- The sorted listing of the page images of a folder —
`sorted(glob.glob(os.path.join(images_folder, '*.png')))` as computed by
`image_to_pdf`. -/
def rasterListing (fs : Fs) (folder : String) : List String :=
  sortStrings (fs.glob folder ".png")

/-- The image loop of `image_to_pdf`: one single-page A4 PDF `tmp_<j>.pdf`
per listed image, optionally deleting the consumed image. -/
def image_to_pdf_loop (output_folder orientation : String)
    (remove_artifacts : Bool) : Fs → List String → Nat → Fs
  | fs, [], _ => fs
  | fs, imgp :: rest, j =>
    let img := match fs.read imgp with
      | some (File.png i) => i
      | _ => ⟨0, 0, 0, []⟩
    let fs2 := fs.write (tmpPdfPath output_folder j)
      (File.pdf ⟨[draw_image (set_page orientation) img orientation]⟩)
    let fs3 := if remove_artifacts then fs2.removeFile imgp else fs2
    image_to_pdf_loop output_folder orientation remove_artifacts fs3 rest (j+1)

/-- Model of `image_to_pdf(images_folder, output_folder, orientation,
remove_artifacts=False)`: draw every listed PNG onto an A4 page. -/
def image_to_pdf (fs : Fs) (images_folder output_folder orientation : String)
    (remove_artifacts : Bool) : Fs :=
  image_to_pdf_loop output_folder orientation remove_artifacts fs
    (rasterListing fs images_folder) 0

/-! ### Document merger (`merge_pdfs`) -/

/-- Model of `merge_pdfs(input_folder, path_to_output_pdf,
remove_artifacts=False)`: append every PDF of the folder in sorted-filename
order into one document and write it (`PdfFileMerger`; with no input it
writes an empty, zero-page document). -/
def merge_pdfs (fs : Fs) (input_folder path_to_output_pdf : String)
    (remove_artifacts : Bool) : Fs :=
  let input_pdfs := sortStrings (fs.glob input_folder ".pdf")
  let pages := input_pdfs.foldr
    (fun p acc =>
      (match fs.read p with
       | some (File.pdf d) => d.pages
       | _ => []) ++ acc) []
  let fs2 := fs.write path_to_output_pdf (File.pdf ⟨pages⟩)
  if remove_artifacts then input_pdfs.foldl (fun a p => a.removeFile p) fs2
  else fs2

/-! ### Composite stages -/

/-- Model of `blur_pages_of_pdf`: rasterize at `dpi` with blurring, recompose onto
A4 pages, merge into `<output_folder>/<basename>_blurred.pdf`. -/
def blur_pages_of_pdf (fs : Fs) (rng : Rng)
    (input_pdf orientation tmp_folder output_folder : String) (dpi : Nat)
    (kernel : Nat × Nat) (sigma : Rat) (remove_artifacts : Bool) :
    Except String (Fs × Rng × String) :=
  let output_pdf := blurredPath output_folder input_pdf
  match pdf_to_image fs rng input_pdf tmp_folder dpi true kernel sigma with
  | Except.error e => Except.error e
  | Except.ok fr =>
    let fs2 := image_to_pdf fr.1 tmp_folder tmp_folder orientation remove_artifacts
    let fs3 := merge_pdfs fs2 tmp_folder output_pdf remove_artifacts
    Except.ok (fs3, fr.2, output_pdf)

/-- Model of `page.mergePage(watermark_page)` (PyPDF2): composite the watermark
page's content onto the page, which keeps its own dimensions. -/
def mergePage (page wm : Page) : Page :=
  ⟨page.pw, page.ph, page.content ++ wm.content⟩

/-- Default page for indexed access (`getPage`). -/
def dPage : Page := ⟨0, 0, []⟩

/-- The page loop of `add_watermark`: for `i in range(getNumPages())`,
merge the watermark onto page `i` and append it to the writer. -/
def watermark_pages (doc : PdfDoc) (wm : Page) : List Page :=
  (List.range doc.pages.length).map (fun i => mergePage (doc.pages.getD i dPage) wm)

/-- Model of `add_watermark(input_pdf, watermark, output_folder,
remove_original=False)`: overlay page 0 of the watermark document onto
every page and write `<output_folder>/<basename>_watermarked.pdf`. -/
def add_watermark (fs : Fs) (input_pdf watermark output_folder : String)
    (remove_original : Bool) : Except String (Fs × String) :=
  let output_pdf := watermarkedPath output_folder input_pdf
  match fs.read watermark with
  | some (File.pdf wdoc) =>
    match wdoc.pages.head? with
    | none => Except.error "IndexError"
    | some wm =>
      match fs.read input_pdf with
      | some (File.pdf doc) =>
        let fs2 := fs.write output_pdf (File.pdf ⟨watermark_pages doc wm⟩)
        Except.ok ((if remove_original then fs2.removeFile input_pdf else fs2),
          output_pdf)
      | _ => Except.error "cannot open PDF"
  | _ => Except.error "cannot open watermark"

/-- Model of `pdf_to_image_to_pdf(input_pdf, tmp_folder, output_folder, orientation,
remove_original=False, remove_artifacts=False)`: rasterize without
blurring, recompose and merge into `<output_folder>/<basename>_im2pdf.pdf`.
The internal rasterization call is `pdf_to_image(input_pdf, tmp_folder,
blur=False)`: it omits the `dpi` argument, so Python's default `dpi=100`
(and default kernel and sigma) apply — written positionally below. -/
def pdf_to_image_to_pdf (fs : Fs) (rng : Rng)
    (input_pdf tmp_folder output_folder orientation : String)
    (remove_original remove_artifacts : Bool) :
    Except String (Fs × Rng × String) :=
  let output_pdf := im2pdfPath output_folder input_pdf
  match pdf_to_image fs rng input_pdf tmp_folder 100 false (5, 5) 1 with
  | Except.error e => Except.error e
  | Except.ok fr =>
    let fs2 := image_to_pdf fr.1 tmp_folder tmp_folder orientation remove_artifacts
    let fs3 := merge_pdfs fs2 tmp_folder output_pdf remove_artifacts
    let fs4 := if remove_original then fs3.removeFile input_pdf else fs3
    Except.ok (fs4, fr.2, output_pdf)

/-! ### Archiving (`move_processed_pdf`) -/

/-- Model of `move_processed_pdf(input_pdf, processed_folder)` with `rnd` the value
drawn by `np.random.randint(0, 100)`: move the input to
`<processed_folder>/<basename>.pdf`, or, when that exists, to
`<processed_folder>/<basename>_exists_<rnd>.pdf`. -/
def move_processed_pdf (fs : Fs) (input_pdf processed_folder : String)
    (rnd : Nat) : Except String Fs :=
  let new_path := archivePath processed_folder input_pdf
  if fs.existsPath new_path then
    fs.rename input_pdf (suffixedArchivePath processed_folder input_pdf rnd)
  else
    fs.rename input_pdf new_path

/-! ### Metadata/encryption sealer (`encrypt_and_add_metadata`) -/

/-- The metadata record written by `encrypt_and_add_metadata`; `today` is
`datetime.today().isoformat()`. -/
def metadataRecord (today : String) : List (String × String) :=
  [("dc:title", "Lecture Notes"),
   ("dc:creator", "Serhan Yarkan, Tapir Lab."),
   ("dc:description", "Tapir Lab. Fall-2020 Lecture Notes"),
   ("dc:subject",
     "Probability, statistics, communications...\n            ALL HAIL TAPIR!\n            tapirlab.com"),
   ("dc:rights", "Tapir Lab. License"),
   ("xmp:CreateDate", today),
   ("xmp:ModifyDate", today),
   ("xmp:CreatorTool", "Tapir Lab.\x27s Automatic Watermarking Script"),
   ("xmpRights:WebStatement", "http://www.tapirlab.com")]

/-- The `pikepdf.Permissions(...)` record built by
`encrypt_and_add_metadata`: printing allowed at both resolutions, all other
listed operations (including accessibility) denied. -/
def permissions : PdfPermissions :=
  { accessibility := false
    extract := false
    modify_annotation := false
    modify_assembly := false
    modify_form := false
    modify_other := false
    print_lowres := true
    print_highres := true }

/-- Model of `encrypt_and_add_metadata(input_pdf, output_folder, usr_pass,
owner_pass, remove_original=False)`: add the metadata record, encrypt with
the two passwords and the fixed permission set, save to
`<output_folder>/<basename>_final.pdf`, optionally delete the input. -/
def encrypt_and_add_metadata (fs : Fs)
    (input_pdf output_folder usr_pass owner_pass : String)
    (remove_original : Bool) (today : String) : Except String Fs :=
  match fs.read input_pdf with
  | some (File.pdf doc) =>
    let output_pdf := finalPath output_folder input_pdf
    let fs2 := fs.write output_pdf
      (File.encpdf doc (metadataRecord today) usr_pass owner_pass permissions)
    Except.ok (if remove_original then fs2.removeFile input_pdf else fs2)
  | _ => Except.error "cannot open PDF"

/-- The permission set attached to a sealed file, if the file is one. -/
def sealedAllow : Option File → Option PdfPermissions
  | some (File.encpdf _ _ _ _ allow) => some allow
  | _ => none

/-! ### Characterization of the rasterization loop -/

/-- The path/file pairs written by `pdf_to_image_loop` without blurring,
starting at index `j`. -/
def pngPairs (output_folder : String) : List Image → Nat → List (String × File)
  | [], _ => []
  | img :: rest, j =>
    (pngPath output_folder j, File.png img) :: pngPairs output_folder rest (j+1)

theorem pngPairs_map_fst (outf : String) :
    ∀ (imgs : List Image) (j : Nat),
      (pngPairs outf imgs j).map Prod.fst =
        (List.range' j imgs.length).map (pngPath outf) := by
  intro imgs
  induction imgs with
  | nil => intro j; rfl
  | cons img rest ih =>
    intro j
    simp only [pngPairs, List.map_cons, List.length_cons, List.range'_succ,
      ih (j+1)]

theorem pngPairs_mem (outf : String) :
    ∀ (imgs : List Image) (j i : Nat) (h : i < imgs.length),
      (pngPath outf (j+i), File.png (imgs.get ⟨i, h⟩)) ∈ pngPairs outf imgs j := by
  intro imgs
  induction imgs with
  | nil => intro j i h; simp at h
  | cons img rest ih =>
    intro j i h
    cases i with
    | zero => simp [pngPairs]
    | succ i' =>
      have h' : i' < rest.length := by simpa using h
      have := ih (j+1) i' h'
      simp only [pngPairs, List.mem_cons]
      right
      have harith : j + 1 + i' = j + (i' + 1) := by omega
      rw [← harith]
      simpa using this

theorem pngPairs_keys_nodup (outf : String) (imgs : List Image) (j : Nat) :
    ((pngPairs outf imgs j).map Prod.fst).Nodup := by
  rw [pngPairs_map_fst]
  exact (List.nodup_range' ..).map (fun a b h => pngPath_inj outf h)

theorem pdf_to_image_loop_false_eq (outf : String) (k : Nat × Nat) (s : Rat) :
    ∀ (imgs : List Image) (fs : Fs) (rng : Rng) (j : Nat),
      pdf_to_image_loop outf false k s fs rng imgs j =
        ((pngPairs outf imgs j).reverse ++ fs, rng) := by
  intro imgs
  induction imgs with
  | nil => intro fs rng j; simp [pdf_to_image_loop, pngPairs]
  | cons img rest ih =>
    intro fs rng j
    simp only [pdf_to_image_loop, Bool.false_eq_true, if_false, ih, Fs.write,
      pngPairs, List.reverse_cons, List.append_assoc, List.singleton_append]

/-- After rasterizing without blurring, the page image `i` reads back as
page `i` of the document rendered at the requested DPI. -/
theorem pdf_to_image_loop_false_read (outf : String) (k : Nat × Nat) (s : Rat)
    (imgs : List Image) (fs : Fs) (rng : Rng) (i : Nat) (h : i < imgs.length) :
    (pdf_to_image_loop outf false k s fs rng imgs 0).1.read (pngPath outf i) =
      some (File.png (imgs.get ⟨i, h⟩)) := by
  rw [pdf_to_image_loop_false_eq]
  apply Fs.read_append_mem
  · rw [List.map_reverse]
    exact (List.nodup_reverse).mpr (pngPairs_keys_nodup outf imgs 0)
  · rw [List.mem_reverse]
    have := pngPairs_mem outf imgs 0 i h
    simpa using this

/-- Shape of the rasterization loop for an arbitrary blur flag: it prepends
one `.png` entry per page, at the indexed page-image paths. -/
theorem pdf_to_image_loop_shape (outf : String) (blur : Bool) (k : Nat × Nat)
    (s : Rat) :
    ∀ (imgs : List Image) (fs : Fs) (rng : Rng) (j : Nat),
      ∃ (ps : List (String × File)) (rng' : Rng),
        pdf_to_image_loop outf blur k s fs rng imgs j = (ps ++ fs, rng') ∧
        ps.map Prod.fst = ((List.range' j imgs.length).map (pngPath outf)).reverse := by
  intro imgs
  induction imgs with
  | nil =>
    intro fs rng j
    exact ⟨[], rng, by simp [pdf_to_image_loop], by simp⟩
  | cons img rest ih =>
    intro fs rng j
    cases blur with
    | false =>
      obtain ⟨ps, rng', h1, h2⟩ :=
        ih (fs.write (pngPath outf j) (File.png img)) rng (j+1)
      refine ⟨ps ++ [(pngPath outf j, File.png img)], rng', ?_, ?_⟩
      · rw [show pdf_to_image_loop outf false k s fs rng (img :: rest) j =
            pdf_to_image_loop outf false k s
              (fs.write (pngPath outf j) (File.png img)) rng rest (j+1) from by
          simp [pdf_to_image_loop]]
        rw [h1]
        simp [Fs.write]
      · simp only [List.map_append, h2, List.length_cons, List.range'_succ,
          List.map_cons, List.reverse_cons, List.map_nil]
    | true =>
      obtain ⟨ps, rng', h1, h2⟩ :=
        ih (fs.write (pngPath outf j) (File.png (blur_image img k s rng).1))
          (blur_image img k s rng).2 (j+1)
      refine ⟨ps ++ [(pngPath outf j, File.png (blur_image img k s rng).1)],
        rng', ?_, ?_⟩
      · rw [show pdf_to_image_loop outf true k s fs rng (img :: rest) j =
            pdf_to_image_loop outf true k s
              (fs.write (pngPath outf j) (File.png (blur_image img k s rng).1))
              (blur_image img k s rng).2 rest (j+1) from by
          simp [pdf_to_image_loop]]
        rw [h1]
        simp [Fs.write]
      · simp only [List.map_append, h2, List.length_cons, List.range'_succ,
          List.map_cons, List.reverse_cons, List.map_nil]

/-- The glob of the folder after rasterization into a clean folder is
exactly the set of written page-image paths. -/
theorem pdf_to_image_glob (fs : Fs) (rng : Rng) (path outf : String)
    (dpi : Nat) (blur : Bool) (k : Nat × Nat) (s : Rat) (doc : PdfDoc)
    (fs1 : Fs) (rng1 : Rng)
    (hread : fs.read path = some (File.pdf doc))
    (hok : pdf_to_image fs rng path outf dpi blur k s = Except.ok (fs1, rng1))
    (hclean : fs.glob outf ".png" = []) :
    fs1.glob outf ".png" =
      ((List.range doc.pages.length).map (pngPath outf)).reverse := by
  obtain ⟨ps, rng', h1, h2⟩ := pdf_to_image_loop_shape outf blur k s
    (convert_from_path doc dpi) fs rng 0
  have hfs1 : fs1 = ps ++ fs := by
    simp only [pdf_to_image, hread, h1] at hok
    have hpair := Except.ok.inj hok
    exact (congrArg Prod.fst hpair).symm
  rw [hfs1, Fs.glob_append]
  have hall : ∀ x ∈ ps.map Prod.fst, globMatch outf ".png" x = true := by
    intro x hx
    rw [h2, List.mem_reverse] at hx
    obtain ⟨i, _, hxe⟩ := List.mem_map.mp hx
    exact hxe ▸ globMatch_pngPath outf i
  rw [List.filter_eq_self.mpr hall, hclean, h2, List.append_nil]
  have : (convert_from_path doc dpi).length = doc.pages.length := by
    simp [convert_from_path]
  rw [this, List.range_eq_range' doc.pages.length]

/-! ### Preservation lemmas for downstream stages -/

theorem image_to_pdf_loop_read_preserve (outf orient : String) :
    ∀ (lst : List String) (fs : Fs) (j : Nat) (p : String),
      (∀ k, p ≠ tmpPdfPath outf k) →
      (image_to_pdf_loop outf orient false fs lst j).read p = fs.read p := by
  intro lst
  induction lst with
  | nil => intro fs j p _; rfl
  | cons imgp rest ih =>
    intro fs j p hp
    rw [show image_to_pdf_loop outf orient false fs (imgp :: rest) j =
        image_to_pdf_loop outf orient false
          (fs.write (tmpPdfPath outf j)
            (File.pdf ⟨[draw_image (set_page orient)
              (match fs.read imgp with
               | some (File.png i) => i
               | _ => ⟨0, 0, 0, []⟩) orient]⟩)) rest (j+1) from by
      simp [image_to_pdf_loop]]
    rw [ih _ (j+1) p hp]
    exact Fs.read_write_ne fs _ (hp j)

theorem merge_pdfs_read_preserve (fs : Fs) (folder out p : String)
    (h : p ≠ out) : (merge_pdfs fs folder out false).read p = fs.read p := by
  simp only [merge_pdfs, Bool.false_eq_true, if_false]
  exact Fs.read_write_ne fs _ h

theorem str_append_assoc (a b c : String) : a ++ b ++ c = a ++ (b ++ c) :=
  str_ext (by simp [str_data_append])

theorem pngPath_ne_pdf_suffix (folder x : String) (i : Nat) :
    x ++ ".pdf" ≠ pngPath folder i := by
  have h : pngPath folder i = ((folder ++ sepS) ++ ("_" ++ natStr i)) ++ ".png" := by
    apply str_ext
    simp [pngPath, pngName, str_data_append]
  rw [h]
  exact append_pdf_ne_append_png x _

theorem im2pdfPath_pdf_suffix (outf input : String) :
    im2pdfPath outf input =
      ((outf ++ sepS) ++ (pyFileName input ++ "_im2pdf")) ++ ".pdf" := by
  apply str_ext
  simp [im2pdfPath, str_data_append]

/-! ### Claim theorems -/

/-- Helper: a successful seal writes, at the `_final` output path, an
encrypted PDF carrying exactly the fixed permission record, whatever the
input was. -/
theorem seal_writes_permissions (fs : Fs) (input outf u o : String) (rm : Bool)
    (today : String) (fs' : Fs)
    (hok : encrypt_and_add_metadata fs input outf u o rm today = Except.ok fs') :
    sealedAllow (fs'.read (finalPath outf input)) = some permissions := by
  have hne : finalPath outf input ≠ input := by
    have := stage_output_ne_input outf input "_final" (by decide) (by decide)
      (by decide)
    simpa [finalPath] using this
  cases hread : fs.read input with
  | none => simp [encrypt_and_add_metadata, hread] at hok
  | some f =>
    cases f with
    | png img => simp [encrypt_and_add_metadata, hread] at hok
    | encpdf d m us ow al => simp [encrypt_and_add_metadata, hread] at hok
    | pdf doc =>
      simp only [encrypt_and_add_metadata, hread] at hok
      have hfs' := (Except.ok.inj hok).symm
      cases rm with
      | false =>
        rw [hfs']
        simp only [Bool.false_eq_true, if_false]
        rw [Fs.read_write_self]
        rfl
      | true =>
        rw [hfs']
        simp only [if_true]
        rw [Fs.read_removeFile_ne _ hne, Fs.read_write_self]
        rfl

/-- C1: For every input document and every invocation of the sealing
operation, the sealed output document permits low-resolution and
high-resolution printing and denies content extraction, annotation
modification, assembly, form-filling, and other modification, regardless of
the input document's content. -/
theorem sealed_permission_invariant (fs : Fs) (input outf u o : String)
    (rm : Bool) (today : String) (fs' : Fs)
    (hok : encrypt_and_add_metadata fs input outf u o rm today = Except.ok fs') :
    sealedAllow (fs'.read (finalPath outf input)) = some permissions ∧
    permissions.print_lowres = true ∧ permissions.print_highres = true ∧
    permissions.extract = false ∧ permissions.modify_annotation = false ∧
    permissions.modify_assembly = false ∧ permissions.modify_form = false ∧
    permissions.modify_other = false :=
  ⟨seal_writes_permissions fs input outf u o rm today fs' hok,
    rfl, rfl, rfl, rfl, rfl, rfl, rfl⟩

/-- C10: For every sealed document, the sealing operation additionally
denies the accessibility permission (content copying for screen readers), a
denial beyond the spec's listed permission set, applied identically
regardless of input. -/
theorem sealed_denies_accessibility (fs : Fs) (input outf u o : String)
    (rm : Bool) (today : String) (fs' : Fs)
    (hok : encrypt_and_add_metadata fs input outf u o rm today = Except.ok fs') :
    sealedAllow (fs'.read (finalPath outf input)) = some permissions ∧
    permissions.accessibility = false :=
  ⟨seal_writes_permissions fs input outf u o rm today fs' hok, rfl⟩

/-- Concrete sealing run used by the permission witnesses. -/
def wSealFs : Fs := [("si/a.pdf", File.pdf ⟨[⟨595, 842, [1]⟩]⟩)]

/-- Result filesystem of the concrete sealing run. -/
def wSealOut : Fs :=
  (encrypt_and_add_metadata wSealFs "si/a.pdf" "out" "" "pw" true "T").toOption.getD []

/-- Witness for C1 at a concrete sealing run. -/
theorem sealed_permission_invariant_witness :
    sealedAllow (wSealOut.read (finalPath "out" "si/a.pdf")) = some permissions :=
  (sealed_permission_invariant wSealFs "si/a.pdf" "out" "" "pw" true "T" wSealOut
    rfl).1

/-- Witness for C10 at a concrete sealing run. -/
theorem sealed_denies_accessibility_witness :
    sealedAllow (wSealOut.read (finalPath "out" "si/a.pdf")) = some permissions ∧
    permissions.accessibility = false :=
  sealed_denies_accessibility wSealFs "si/a.pdf" "out" "" "pw" true "T" wSealOut
    rfl

/-- C2: If the archive target `<processed_folder>/<basename>.pdf` already
exists and `move_processed_pdf` returns successfully, the pre-existing
archived file is untouched, the newly archived file exists under the
distinct suffixed name, and no existing file is overwritten. -/
theorem move_processed_collision_safe (fs : Fs) (input procf : String)
    (rnd : Nat) (fs' : Fs)
    (hex : fs.existsPath (archivePath procf input) = true)
    (hne : input ≠ archivePath procf input)
    (hok : move_processed_pdf fs input procf rnd = Except.ok fs') :
    fs'.read (archivePath procf input) = fs.read (archivePath procf input) ∧
    fs'.read (suffixedArchivePath procf input rnd) = fs.read input ∧
    suffixedArchivePath procf input rnd ≠ archivePath procf input ∧
    (∀ p, p ≠ input → fs.existsPath p = true → fs'.read p = fs.read p) := by
  have hne2 : suffixedArchivePath procf input rnd ≠ archivePath procf input := by
    intro h
    have hd := congrArg String.data h
    simp only [suffixedArchivePath, archivePath, str_data_append] at hd
    have h1 := List.append_cancel_left hd
    have h2 := List.append_cancel_left h1
    have hlen := congrArg List.length h2
    simp only [str_data_append, List.length_append] at hlen
    have e1 : ("_exists_" : String).data.length = 8 := rfl
    have e2 : (".pdf" : String).data.length = 4 := rfl
    rw [e1, e2] at hlen
    omega
  simp only [move_processed_pdf, hex, if_true] at hok
  unfold Fs.rename at hok
  cases hsrc : fs.read input with
  | none => rw [hsrc] at hok; exact absurd hok (by simp)
  | some f =>
    rw [hsrc] at hok
    cases hdst : fs.existsPath (suffixedArchivePath procf input rnd) with
    | true => rw [hdst] at hok; simp at hok
    | false =>
      rw [hdst] at hok
      simp only [Bool.false_eq_true, if_false] at hok
      have hfs' := (Except.ok.inj hok).symm
      have harch : fs'.read (archivePath procf input) =
          fs.read (archivePath procf input) := by
        rw [hfs', Fs.read_write_ne _ _ (Ne.symm hne2),
          Fs.read_removeFile_ne _ (Ne.symm hne)]
      refine ⟨harch, ?_, hne2, ?_⟩
      · simp [hfs', Fs.read_write_self, hsrc]
      · intro p hp hpex
        have hpdst : p ≠ suffixedArchivePath procf input rnd := by
          intro hpd
          rw [hpd] at hpex
          rw [hpex] at hdst
          exact Bool.noConfusion hdst
        rw [hfs', Fs.read_write_ne _ _ hpdst, Fs.read_removeFile_ne _ hp]

/-- Concrete archiving run used by the C2 witness. -/
def wMoveFs : Fs :=
  [("si/a.pdf", File.pdf ⟨[dPage]⟩), ("proc/a.pdf", File.pdf ⟨[]⟩)]

/-- Result filesystem of the concrete archiving run. -/
def wMoveOut : Fs :=
  (move_processed_pdf wMoveFs "si/a.pdf" "proc" 7).toOption.getD []

/-- Witness for C2 at a concrete collision. -/
theorem move_processed_collision_safe_witness :
    wMoveOut.read (archivePath "proc" "si/a.pdf") =
      wMoveFs.read (archivePath "proc" "si/a.pdf") :=
  (move_processed_collision_safe wMoveFs "si/a.pdf" "proc" 7 wMoveOut
    (by decide) (by decide) rfl).1

/-- C3 counterexample: invoked with an empty collected input list (no PDF
in the folder), the merger returns normally and writes an empty, zero-page
document — it signals no error. -/
theorem merge_empty_input_cex :
    sortStrings (Fs.glob [("other/b.pdf", File.pdf ⟨[dPage]⟩)] "tmp" ".pdf") = [] ∧
    (merge_pdfs [("other/b.pdf", File.pdf ⟨[dPage]⟩)] "tmp" "out/m.pdf" false).read
      "out/m.pdf" = some (File.pdf ⟨[]⟩) := by
  decide

/-- C3 amended: invoked with an empty collected input list, the merger
silently writes an empty (zero-page) output document rather than signaling
an error. -/
theorem merge_empty_input_silent (fs : Fs) (folder out : String) (rm : Bool)
    (h : fs.glob folder ".pdf" = []) :
    (merge_pdfs fs folder out rm).read out = some (File.pdf ⟨[]⟩) := by
  simp only [merge_pdfs, h]
  cases rm <;> simp [sortStrings, Fs.read_write_self]

/-- Witness for the amended C3 at a concrete empty folder. -/
theorem merge_empty_input_silent_witness :
    (merge_pdfs [("x/c.pdf", File.pdf ⟨[]⟩)] "tmp" "o.pdf" true).read "o.pdf" =
      some (File.pdf ⟨[]⟩) :=
  merge_empty_input_silent [("x/c.pdf", File.pdf ⟨[]⟩)] "tmp" "o.pdf" true
    (by decide)

/-- Sorting the unpadded page-image names of up to ten pages (in any initial
order arising from the writes) restores page order. -/
theorem sort_pngNames_small :
    ∀ n, n ≤ 10 →
      sortStrings ((List.range n).reverse.map pngName) =
        (List.range n).map pngName := by
  decide

/-- C4 counterexample: a ten-page document also satisfies the ordering
requirement — its indices 0–9 are all single digits — although ten is not
under ten, so "exactly when the page count is under 10" fails. -/
theorem raster_listing_order_at_ten :
    sortStrings ((List.range 10).map pngName) = (List.range 10).map pngName ∧
    ¬ (10 < 10) := by
  decide

/-- C4 amended: rasterization writes one image file per page named with a
zero-based page index, and the lexicographic listing of the output directory
equals the source page order for every document with at most 10 pages; the
unpadded naming fails at 11 pages (`_10.png` sorts before `_2.png`). -/
theorem raster_listing_order :
    (∀ (fs : Fs) (rng : Rng) (path folder : String) (dpi : Nat) (blur : Bool)
       (k : Nat × Nat) (s : Rat) (doc : PdfDoc) (fs1 : Fs) (rng1 : Rng),
       fs.read path = some (File.pdf doc) →
       doc.pages.length ≤ 10 →
       fs.glob folder ".png" = [] →
       pdf_to_image fs rng path folder dpi blur k s = Except.ok (fs1, rng1) →
       rasterListing fs1 folder =
         (List.range doc.pages.length).map (pngPath folder)) ∧
    sortStrings ((List.range 11).map pngName) ≠ (List.range 11).map pngName := by
  constructor
  · intro fs rng path folder dpi blur k s doc fs1 rng1 hread hlen hclean hok
    rw [rasterListing,
      pdf_to_image_glob fs rng path folder dpi blur k s doc fs1 rng1 hread hok
        hclean]
    have h1 : ((List.range doc.pages.length).map (pngPath folder)).reverse =
        ((List.range doc.pages.length).reverse.map pngName).map
          (fun t => (folder ++ sepS) ++ t) := by
      rw [List.map_map, ← List.map_reverse]
      rfl
    rw [h1, sortStrings_map_append, sort_pngNames_small _ hlen, List.map_map]
    rfl
  · decide

/-- Concrete rasterization run used by the C4 witness. -/
def wRasterFs : Fs := [("si/d.pdf", File.pdf ⟨[⟨1, 1, [7]⟩, ⟨1, 1, [8]⟩]⟩)]

/-- Result of the concrete rasterization run. -/
def wRasterRes : Fs × Rng :=
  (pdf_to_image wRasterFs (fun _ => 0) "si/d.pdf" "tmp" 100 false (5, 5)
    1).toOption.getD ([], fun _ => 0)

/-- Witness for the amended C4 at a concrete two-page document. -/
theorem raster_listing_order_witness :
    rasterListing wRasterRes.1 "tmp" = (List.range 2).map (pngPath "tmp") :=
  raster_listing_order.1 wRasterFs (fun _ => 0) "si/d.pdf" "tmp" 100 false
    (5, 5) 1 ⟨[⟨1, 1, [7]⟩, ⟨1, 1, [8]⟩]⟩ wRasterRes.1 wRasterRes.2
    (by decide) (by decide) (by decide) rfl

/-- The concrete draw of one negative noise sample for the C5
counterexample. -/
def rngNeg : Rng := fun _ => -1

/-- C5 counterexample: on a one-pixel image of value 100 with noise sample
−1, the noise stage of the blur filter yields 255 (the sample wraps to 255
under the `uint8` cast and the saturating add then clamps at the top),
whereas the claimed clamp of `image + noise` is 99. -/
theorem noise_stage_cex :
    (blur_image ⟨1, 1, 1, [100]⟩ (5, 5) 1 rngNeg).1.data = [255] ∧
    spec_noise_add 100 (-1) = 99 ∧ (255 : Int) ≠ 99 := by
  refine ⟨by decide, by decide, by decide⟩

/-- C5 amended: the noise stage generates per-pixel noise shaped to the
image's pixel array; each sample is cast to `uint8` (negative samples wrap
modularly) and then added with saturating arithmetic, so every resulting
channel value is `min 255 (pixel + cast sample)` and never exceeds 255; for
samples in `[0, 255]` this coincides with the claimed clamp of
`image + noise`. -/
theorem noise_stage_saturates_wrapped (rng : Rng) (n p : Nat) (z : Int)
    (hp : p ≤ 255) :
    (np_random_normal rng n).1.length = n ∧
    cv2_add p (astype_uint8 z) ≤ 255 ∧
    (0 ≤ z → z ≤ 255 → (cv2_add p (astype_uint8 z) : Int) = spec_noise_add p z) ∧
    (-256 < z → z < 0 → astype_uint8 z = (256 + z).toNat) ∧
    add_gaussian_noise [p] [z] = [cv2_add p (astype_uint8 z)] := by
  refine ⟨by simp [np_random_normal], ?_, ?_, ?_, rfl⟩
  · simp [cv2_add]
  · intro h0 h255
    have hz : z % 256 = z := Int.emod_eq_of_lt h0 (by omega)
    simp only [cv2_add, astype_uint8, hz, spec_noise_add]
    have hzt : ((z.toNat : Int)) = z := Int.toNat_of_nonneg h0
    push_cast
    rw [hzt]
    simp only [min_def, max_def]
    split_ifs <;> omega
  · intro hlo hhi
    simp only [astype_uint8]
    omega

/-- Witness for the amended C5 at pixel 100 and sample 3. -/
theorem noise_stage_saturates_wrapped_witness :
    (np_random_normal rngNeg 4).1.length = 4 ∧
    cv2_add 100 (astype_uint8 3) ≤ 255 ∧
    (0 ≤ (3 : Int) → (3 : Int) ≤ 255 →
      (cv2_add 100 (astype_uint8 3) : Int) = spec_noise_add 100 3) ∧
    (-256 < (3 : Int) → (3 : Int) < 0 → astype_uint8 3 = ((256 : Int) + 3).toNat) ∧
    add_gaussian_noise [100] [3] = [cv2_add 100 (astype_uint8 3)] :=
  noise_stage_saturates_wrapped rngNeg 4 100 3 (by decide)

/-- C6: The watermark compositor produces a document with the same page
count as its input, pages in original order, each one the merge of the
corresponding input page with the watermark page. -/
theorem add_watermark_preserves_pages (fs : Fs) (input wmP outf : String)
    (rm : Bool) (doc wdoc : PdfDoc) (wm : Page) (fs' : Fs) (out : String)
    (hin : fs.read input = some (File.pdf doc))
    (hwm : fs.read wmP = some (File.pdf wdoc))
    (hw0 : wdoc.pages.head? = some wm)
    (hok : add_watermark fs input wmP outf rm = Except.ok (fs', out)) :
    fs'.read (watermarkedPath outf input) =
      some (File.pdf ⟨watermark_pages doc wm⟩) ∧
    (watermark_pages doc wm).length = doc.pages.length ∧
    (∀ i, i < doc.pages.length →
      (watermark_pages doc wm).getD i dPage =
        mergePage (doc.pages.getD i dPage) wm) := by
  have hne : watermarkedPath outf input ≠ input := by
    have := stage_output_ne_input outf input "_watermarked" (by decide)
      (by decide) (by decide)
    simpa [watermarkedPath] using this
  simp only [add_watermark, hwm, hw0, hin] at hok
  have hpair := Except.ok.inj hok
  have hfs' : (if rm then
      ((fs.write (watermarkedPath outf input)
        (File.pdf ⟨watermark_pages doc wm⟩)).removeFile input)
    else fs.write (watermarkedPath outf input)
      (File.pdf ⟨watermark_pages doc wm⟩)) = fs' := congrArg Prod.fst hpair
  refine ⟨?_, by simp [watermark_pages], ?_⟩
  · rw [← hfs']
    cases rm with
    | false =>
      simp only [Bool.false_eq_true, if_false]
      exact Fs.read_write_self _ _ _
    | true =>
      simp only [if_true]
      rw [Fs.read_removeFile_ne _ hne]
      exact Fs.read_write_self _ _ _
  · intro i hi
    simp [watermark_pages, List.getD_eq_getElem?_getD, List.getElem?_map,
      List.getElem?_range hi]

/-- Concrete watermarking run used by the C6 witness. -/
def wWmFs : Fs :=
  [("si/a.pdf", File.pdf ⟨[⟨595, 842, [1]⟩, ⟨595, 842, [2]⟩]⟩),
   ("wm/w.pdf", File.pdf ⟨[⟨595, 842, [9]⟩]⟩)]

/-- Result of the concrete watermarking run. -/
def wWmOut : Fs × String :=
  (add_watermark wWmFs "si/a.pdf" "wm/w.pdf" "out" true).toOption.getD ([], "")

/-- Witness for C6 at a concrete two-page document. -/
theorem add_watermark_preserves_pages_witness :
    wWmOut.1.read (watermarkedPath "out" "si/a.pdf") =
      some (File.pdf ⟨watermark_pages ⟨[⟨595, 842, [1]⟩, ⟨595, 842, [2]⟩]⟩
        ⟨595, 842, [9]⟩⟩) :=
  (add_watermark_preserves_pages wWmFs "si/a.pdf" "wm/w.pdf" "out" true
    ⟨[⟨595, 842, [1]⟩, ⟨595, 842, [2]⟩]⟩ ⟨[⟨595, 842, [9]⟩]⟩ ⟨595, 842, [9]⟩
    wWmOut.1 wWmOut.2 (by decide) (by decide) (by decide) rfl).1

/-- The concrete sample stream for the C7 counterexample: the first draw
yields 0, every later draw yields 255. -/
def rngStep : Rng := fun i => if i = 0 then 0 else 255

/-- The concrete one-pixel image for the C7 counterexample. -/
def img100 : Image := ⟨1, 1, 1, [100]⟩

/-- C7 counterexample: two successive runs of the blur filter on the same
input image return different rasters, because the first run advances the
global random generator consumed by the second. -/
theorem blur_image_not_pure :
    (blur_image img100 (5, 5) 1 rngStep).1 ≠
      (blur_image img100 (5, 5) 1 (blur_image img100 (5, 5) 1 rngStep).2).1 := by
  decide

/-- C7 amended: the filter writes no files and mutates nothing beyond
consuming the global random stream; it returns a raster with the dimensions
and buffer length of its input, and its output is determined by the input
image together with the consumed prefix of the random stream. -/
theorem blur_image_rng_and_dims (img : Image) (k : Nat × Nat) (s : Rat)
    (rng rng' : Rng)
    (hlen : img.data.length = img.height * img.width * img.channels)
    (hagree : ∀ i, i < img.height * img.width * img.channels → rng i = rng' i) :
    (blur_image img k s rng).1 = (blur_image img k s rng').1 ∧
    (blur_image img k s rng).1.height = img.height ∧
    (blur_image img k s rng).1.width = img.width ∧
    (blur_image img k s rng).1.channels = img.channels ∧
    (blur_image img k s rng).1.data.length = img.data.length := by
  have hmap : (List.range (img.height * img.width * img.channels)).map rng =
      (List.range (img.height * img.width * img.channels)).map rng' := by
    apply List.map_congr_left
    intro a ha
    exact hagree a (List.mem_range.mp ha)
  refine ⟨?_, rfl, rfl, rfl, ?_⟩
  · simp [blur_image, cv2_GaussianBlur, np_random_normal, hmap]
  · simp only [blur_image, cv2_GaussianBlur, np_random_normal,
      add_gaussian_noise, List.length_zipWith, List.length_map,
      List.length_range]
    omega

/-- Witness for the amended C7 at a concrete image and equal streams. -/
theorem blur_image_rng_and_dims_witness :
    (blur_image img100 (5, 5) 1 rngStep).1 =
      (blur_image img100 (5, 5) 1 rngStep).1 ∧
    (blur_image img100 (5, 5) 1 rngStep).1.height = img100.height ∧
    (blur_image img100 (5, 5) 1 rngStep).1.width = img100.width ∧
    (blur_image img100 (5, 5) 1 rngStep).1.channels = img100.channels ∧
    (blur_image img100 (5, 5) 1 rngStep).1.data.length = img100.data.length :=
  blur_image_rng_and_dims img100 (5, 5) 1 rngStep rngStep (by decide)
    (fun _ _ => rfl)

/-- C8: Every pipeline stage derives the output basename from the portion of
the input filename before the first dot, so two inputs that differ only
after a first interior dot share every stage output path and the archive
target path, and a later write at the shared path silently replaces the
earlier one. -/
theorem stage_paths_collide (dir base r₁ r₂ outf procf : String) (fs : Fs)
    (f₁ f₂ : File)
    (hdot : '.' ∉ base.data) (hsep : sepChar ∉ base.data)
    (hr₁ : sepChar ∉ r₁.data) (hr₂ : sepChar ∉ r₂.data) :
    pyFileName (dir ++ sepS ++ (base ++ "." ++ r₁)) = base ∧
    pyFileName (dir ++ sepS ++ (base ++ "." ++ r₂)) = base ∧
    blurredPath outf (dir ++ sepS ++ (base ++ "." ++ r₁)) =
      blurredPath outf (dir ++ sepS ++ (base ++ "." ++ r₂)) ∧
    watermarkedPath outf (dir ++ sepS ++ (base ++ "." ++ r₁)) =
      watermarkedPath outf (dir ++ sepS ++ (base ++ "." ++ r₂)) ∧
    im2pdfPath outf (dir ++ sepS ++ (base ++ "." ++ r₁)) =
      im2pdfPath outf (dir ++ sepS ++ (base ++ "." ++ r₂)) ∧
    finalPath outf (dir ++ sepS ++ (base ++ "." ++ r₁)) =
      finalPath outf (dir ++ sepS ++ (base ++ "." ++ r₂)) ∧
    archivePath procf (dir ++ sepS ++ (base ++ "." ++ r₁)) =
      archivePath procf (dir ++ sepS ++ (base ++ "." ++ r₂)) ∧
    ((fs.write (blurredPath outf (dir ++ sepS ++ (base ++ "." ++ r₁))) f₁).write
        (blurredPath outf (dir ++ sepS ++ (base ++ "." ++ r₂))) f₂).read
      (blurredPath outf (dir ++ sepS ++ (base ++ "." ++ r₁))) = some f₂ := by
  have key : ∀ r : String, sepChar ∉ r.data →
      pyFileName (dir ++ sepS ++ (base ++ "." ++ r)) = base := by
    intro r hr
    have hname : sepChar ∉ (base ++ "." ++ r).data := by
      rw [str_data_append, str_data_append]
      intro hm
      rcases List.mem_append.mp hm with hm | hm
      · rcases List.mem_append.mp hm with hm | hm
        · exact hsep hm
        · revert hm; decide
      · exact hr hm
    rw [pyFileName_concat _ _ hname]
    have hdata : (base ++ "." ++ r).data = base.data ++ '.' :: r.data := by
      rw [str_data_append, str_data_append]
      simp
    rw [hdata, splitCore_fst_append '.' base.data _ hdot]
  have k₁ := key r₁ hr₁
  have k₂ := key r₂ hr₂
  have hpe : blurredPath outf (dir ++ sepS ++ (base ++ "." ++ r₁)) =
      blurredPath outf (dir ++ sepS ++ (base ++ "." ++ r₂)) := by
    simp [blurredPath, k₁, k₂]
  refine ⟨k₁, k₂, hpe, by simp [watermarkedPath, k₁, k₂],
    by simp [im2pdfPath, k₁, k₂], by simp [finalPath, k₁, k₂],
    by simp [archivePath, k₁, k₂], ?_⟩
  rw [hpe]
  exact Fs.read_write_self _ _ _

/-- Witness for C8 at the concrete pair `a.v1.pdf` / `a.v2.pdf`. -/
theorem stage_paths_collide_witness :
    pyFileName ("sample_input" ++ sepS ++ ("a" ++ "." ++ "v1.pdf")) = "a" :=
  (stage_paths_collide "sample_input" "a" "v1.pdf" "v2.pdf" "out" "proc" []
    (File.pdf ⟨[]⟩) (File.pdf ⟨[dPage]⟩) (by decide) (by decide) (by decide)
    (by decide)).1

/-- C9: `pdf_to_image_to_pdf` always rasterizes at the fixed Python default
of 100 DPI — its internal rasterization call omits the `dpi` argument, so
whatever DPI the first stage was configured with, the page images of the
flattening pass are the pages rendered at 100 DPI (and differ from any
other DPI's rendering on pages of nonzero height). -/
theorem flatten_rasterizes_at_100 (fs : Fs) (rng : Rng)
    (input tmp outf orient : String) (doc : PdfDoc) (fs' : Fs) (rng' : Rng)
    (out : String)
    (hread : fs.read input = some (File.pdf doc))
    (hok : pdf_to_image_to_pdf fs rng input tmp outf orient false false =
      Except.ok (fs', rng', out)) :
    ∀ j (h : j < doc.pages.length),
      fs'.read (pngPath tmp j) =
        some (File.png (convert_page (doc.pages.get ⟨j, h⟩) 100)) ∧
      (∀ dpi, dpi ≠ 100 → (doc.pages.get ⟨j, h⟩).ph ≠ 0 →
        convert_page (doc.pages.get ⟨j, h⟩) dpi ≠
          convert_page (doc.pages.get ⟨j, h⟩) 100) := by
  intro j h
  constructor
  · simp only [pdf_to_image_to_pdf, pdf_to_image, hread, Bool.false_eq_true,
      if_false] at hok
    have hpair := Except.ok.inj hok
    have hfs' := congrArg Prod.fst hpair
    dsimp only at hfs'
    rw [← hfs']
    have hne1 : pngPath tmp j ≠ im2pdfPath outf input := by
      rw [im2pdfPath_pdf_suffix]
      exact (pngPath_ne_pdf_suffix _ _ j).symm
    rw [merge_pdfs_read_preserve _ tmp (im2pdfPath outf input) _ hne1]
    rw [show image_to_pdf
        (pdf_to_image_loop tmp false (5, 5) 1 fs rng
          (convert_from_path doc 100) 0).1 tmp tmp orient false =
        image_to_pdf_loop tmp orient false
          (pdf_to_image_loop tmp false (5, 5) 1 fs rng
            (convert_from_path doc 100) 0).1
          (rasterListing
            (pdf_to_image_loop tmp false (5, 5) 1 fs rng
              (convert_from_path doc 100) 0).1 tmp) 0 from rfl]
    rw [image_to_pdf_loop_read_preserve tmp orient _ _ 0 _
      (fun kk => pngPath_ne_tmpPdfPath tmp tmp j kk rfl)]
    have hlen2 : j < (convert_from_path doc 100).length := by
      simpa [convert_from_path] using h
    rw [pdf_to_image_loop_false_read tmp (5, 5) 1 (convert_from_path doc 100)
      fs rng j hlen2]
    congr 1
    simp [convert_from_path, List.get_eq_getElem, List.getElem_map]
  · intro dpi hdpi hph heq
    have hh := congrArg Image.height heq
    simp only [convert_page] at hh
    exact hdpi (Nat.eq_of_mul_eq_mul_left (Nat.pos_of_ne_zero hph) hh)

/-- Concrete flattening run used by the C9 witness. -/
def wFlatFs : Fs := [("si/a.pdf", File.pdf ⟨[⟨2, 3, [5]⟩]⟩)]

/-- The all-zero sample stream. -/
def rng0 : Rng := fun _ => 0

/-- Result of the concrete flattening run. -/
def wFlatRes : Fs × Rng × String :=
  (pdf_to_image_to_pdf wFlatFs rng0 "si/a.pdf" "tmp" "out" "portrait" false
    false).toOption.getD ([], rng0, "")

/-- Witness for C9 at a concrete one-page document. -/
theorem flatten_rasterizes_at_100_witness :
    wFlatRes.1.read (pngPath "tmp" 0) =
      some (File.png (convert_page ((⟨[⟨2, 3, [5]⟩]⟩ : PdfDoc).pages.get
        ⟨0, by decide⟩) 100)) :=
  (flatten_rasterizes_at_100 wFlatFs rng0 "si/a.pdf" "tmp" "out" "portrait"
    ⟨[⟨2, 3, [5]⟩]⟩ wFlatRes.1 wFlatRes.2.1 wFlatRes.2.2 (by decide) rfl 0
    (by decide)).1
